import Mathlib

/-!
Verification development for the django-fast-update repository.

The file shallowly embeds the parts of the code base that the checked
claims are about:

* `fast_update/update.py`: `_merge_values`, `predictor`, `upd_pk_work`,
  `UDP_1`, `_flat`, `_merged`, `merged_update` (the statement-path planner
  and its cost model);
* `fast_update/query.py`: the argument validation of
  `FastUpdateQuerySet.fast_update`, and the effective batch size
  computation of `_fast_update`;
* `fast_update/copy.py`: `is_empty_array`, `_balanced`, `is_balanced`,
  `array_factory`'s `_encode_array`, `array_escape`, and the binary
  encoders `Binary` / `BinaryOrNone`.

Conventions of the embedding:

* Python `dict`s (which preserve insertion order; assignment to an
  existing key keeps its position, assignment to a fresh key appends)
  are modelled as association lists `List (k × v)` with `alGet`/`alSet`.
* Field names are modelled as `Nat` identifiers; a model instance
  (`MObj`) carries its primary key and a positional value list, and
  attribute access `attrgetter(fieldname)` is `MObj.val`.
* Python values appearing in update batches are `MVal`: a payload
  together with a `hashable` flag; `accu[value]` on an unhashable value
  raises `TypeError` in the source, which the embedding models by
  branching on the flag.
* `math.log2` on Python floats is modelled by `Real.logb 2` on the
  exact reals.
* Database cursors are oracles mapping an executed statement to its
  vendor-reported affected-row count.
-/

set_option autoImplicit false

/-! ## Insertion-ordered association lists (Python dict model) -/

/-- First value stored under key `k`, scanning left to right
(Python `d[k]` / `d.get(k)`). -/
def alGet {α β : Type} [DecidableEq α] : List (α × β) → α → Option β
  | [], _ => none
  | (a, b) :: t, k => if a = k then some b else alGet t k

/-- Python `d[k] = v`: replace in place if the key exists,
append at the end otherwise. -/
def alSet {α β : Type} [DecidableEq α] : List (α × β) → α → β → List (α × β)
  | [], k, v => [(k, v)]
  | (a, b) :: t, k, v => if a = k then (a, v) :: t else (a, b) :: alSet t k v

/-! ## Values, objects and fields for the statement-path planner -/

/-- A field value as seen by `_merge_values`: a payload plus a flag for
whether Python could hash it (unhashable values raise `TypeError` when
used as dict keys and are diverted to the flat residues). -/
structure MVal where
  hashable : Bool
  payload : Nat
deriving DecidableEq, Repr

/-- A model instance handed to the update machinery: primary key plus a
positional value list (position `f` is the value of field `f`). -/
structure MObj where
  pk : Nat
  vals : List MVal
deriving DecidableEq, Repr

/-- `attrgetter(fieldname)(o)`: attribute access on a model instance. -/
def MObj.val (o : MObj) (f : Nat) : MVal :=
  o.vals.getD f ⟨true, 0⟩

/-- The per-field accumulator dict of `_merge_values` step 1:
value -> list of pks of the objects holding that value. -/
abbrev AccuT := List (MVal × List Nat)

/-- `merged_pks`: fieldname -> accumulator. -/
abbrev MpT := List (Nat × AccuT)

/-- `flat_residues`: pk -> (fieldname -> value). -/
abbrev FrT := List (Nat × List (Nat × MVal))

/-- `merged_updates`: frozenset of pks -> (fieldname -> value). -/
abbrev MuT := List (Finset Nat × List (Nat × MVal))

/-- `d[k][f] = v` on a `defaultdict(dict)`-like nested dict: used both for
`flat_residues[pk][fieldname] = value` and
`merged_updates[frozenset(pks)][fieldname] = value`. -/
def alAdd {κ : Type} [DecidableEq κ] (l : List (κ × List (Nat × MVal)))
    (k : κ) (f : Nat) (v : MVal) : List (κ × List (Nat × MVal)) :=
  alSet l k (alSet ((alGet l k).getD []) f v)

/-- Inner loop of `_merge_values` step 1 for one `fieldname`:
`accu[value].append(o.pk)` for hashable values, otherwise
`flat_residues[o.pk][fieldname] = value`. -/
def step1Field (objs : List MObj) (f : Nat) : AccuT × FrT → AccuT × FrT :=
  fun s => objs.foldl
    (fun s o =>
      let v := o.val f
      if v.hashable then
        (alSet s.1 v (((alGet s.1 v).getD []) ++ [o.pk]), s.2)
      else
        (s.1, alAdd s.2 o.pk f v))
    s

/-- One iteration of the outer `for fieldname in fields` loop of
`_merge_values` step 1 (`accu = merged_pks[fieldname]` creates the entry,
the inner loop fills it). -/
def step1Step (objs : List MObj) (s : MpT × FrT) (f : Nat) : MpT × FrT :=
  let r := step1Field objs f ((alGet s.1 f).getD [], s.2)
  (alSet s.1 f r.1, r.2)

/-- `_merge_values` step 1: aggregate pks under equal hashable values,
unhashable values go to the flat residues. -/
def step1 (objs : List MObj) (fields : List Nat) : MpT × FrT :=
  fields.foldl (step1Step objs) ([], [])

/-- `_merge_values` step 2, body of the inner loop over
`pkdata.items()`: pk groups of size 1 are transferred to the residues,
larger groups become merged updates keyed by their frozenset of pks. -/
def step2Entry (f : Nat) (s : MuT × FrT) (e : MVal × List Nat) : MuT × FrT :=
  match e.2 with
  | [p] => (s.1, alAdd s.2 p f e.1)
  | ps => (alAdd s.1 ps.toFinset f e.1, s.2)

/-- `_merge_values` step 2: aggregate fields under pk groups. -/
def step2 (mp : MpT) (fr : FrT) : MuT × FrT :=
  mp.foldl (fun s e => e.2.foldl (step2Entry e.1) s) ([], fr)

/-- `_merge_values(objs, fields)`: returns
`(merged_updates, flat_residues)`. -/
def mergeValues (objs : List MObj) (fields : List Nat) : MuT × FrT :=
  step2 (step1 objs fields).1 (step1 objs fields).2

/-! ## Cost predictor (update.py) -/

/-- `upd_pk_work(n) = 10 + math.log2(n)`: modelled cost of one UPDATE
statement keyed over `n` pks. -/
noncomputable def upd_pk_work (n : Nat) : ℝ := 10 + Real.logb 2 n

/-- `UDP_1 = upd_pk_work(1)`. -/
noncomputable def UDP_1 : ℝ := upd_pk_work 1

/-- `predictor(objs, fields, merged_updates, residues)`: ratio of the
predicted merged work over the predicted flat work. -/
noncomputable def predictor (objs : List MObj) (fields : List Nat)
    (merged_updates : MuT) (residues : FrT) : ℝ :=
  let flat_work : ℝ := ((fields.length : ℝ) + UDP_1) * (objs.length : ℝ)
  let uh_work : ℝ := (residues.length : ℝ) * UDP_1
    + ((residues.map (fun e => (e.2.length : ℝ))).sum)
  let mg_work : ℝ := ((merged_updates.map (fun e => upd_pk_work e.1.card)).sum)
    + ((merged_updates.map (fun e => (e.2.length : ℝ))).sum)
  (uh_work + mg_work) / flat_work

/-! ## Executed statements and reported row counts (update.py) -/

/-- An UPDATE statement issued by the statement path: either a
single-pk update (`qs.filter(pk=o.pk).update(**data)`) or a pk-group
update (`qs.filter(pk__in=pks).update(**data)`). -/
inductive Stmt where
  | single (pk : Nat) (data : List (Nat × MVal))
  | group (pks : Finset Nat) (data : List (Nat × MVal))
deriving DecidableEq

/-- The statements issued by `_flat`: one per object, carrying that
object's values for all requested fields. -/
def flatStmts (objs : List MObj) (fields : List Nat) : List Stmt :=
  objs.map (fun o => .single o.pk (fields.map (fun f => (f, o.val f))))

/-- The statements of the merged plan inside `_merged`: one per merged
group followed by one per flat residue. -/
def groupPlanStmts (objs : List MObj) (fields : List Nat) : List Stmt :=
  (mergeValues objs fields).1.map (fun e => .group e.1 e.2)
    ++ (mergeValues objs fields).2.map (fun e => .single e.1 e.2)

open Classical in
/-- The statements `_merged` executes: the merged plan when the
predicted ratio is below 0.8, the flat plan otherwise. -/
noncomputable def mergedStmts (objs : List MObj) (fields : List Nat) : List Stmt :=
  if predictor objs fields (mergeValues objs fields).1 (mergeValues objs fields).2
      < (0.8 : ℝ) then
    groupPlanStmts objs fields
  else
    flatStmts objs fields

/-- The statements `merged_update` executes: fewer than 3 objects
always short-circuit to `_flat`, otherwise `_merged` decides.
(`_update` is modelled in its single-table form: with one model and no
extra where-clause, it passes `objs` and `fieldnames` through
unchanged.) -/
noncomputable def mergedUpdateStmts (objs : List MObj) (fields : List Nat) : List Stmt :=
  if objs.length < 3 then flatStmts objs fields else mergedStmts objs fields

/-- Return value of `_flat`: the sum of the affected-row counts the
cursor oracle `db` reports for the per-object statements. -/
def flatResult (db : Stmt → Nat) (objs : List MObj) (fields : List Nat) : Nat :=
  objs.foldl
    (fun acc o => acc + db (.single o.pk (fields.map (fun f => (f, o.val f))))) 0

open Classical in
/-- Return value of `_merged`: on the merged plan the statements are
executed but their reported counts are discarded and `len(objs)` is
returned; otherwise `_flat`'s summed count is returned. -/
noncomputable def mergedResult (db : Stmt → Nat) (objs : List MObj)
    (fields : List Nat) : Nat :=
  if predictor objs fields (mergeValues objs fields).1 (mergeValues objs fields).2
      < (0.8 : ℝ) then
    objs.length
  else
    flatResult db objs fields

/-- Return value of `merged_update` (single-table form of `_update`). -/
noncomputable def mergedUpdateResult (db : Stmt → Nat) (objs : List MObj)
    (fields : List Nat) : Nat :=
  if objs.length < 3 then flatResult db objs fields else mergedResult db objs fields

/-! ## copy.py bulk-load path: executed operations and row count -/

/-- The row data `copy_update` streams into the staging table:
`(pk, field values)` per object. -/
def copyRows (objs : List MObj) (fields : List Nat) : List (Nat × List (Nat × MVal)) :=
  objs.map (fun o => (o.pk, fields.map (fun f => (f, o.val f))))

/-- The SQL operations `copy_update` executes on its cursor, in order. -/
inductive SqlOp where
  | dropIfExists
  | createTemp
  | copyFrom (rows : List (Nat × List (Nat × MVal)))
  | analyzeTemp
  | updateJoin (rows : List (Nat × List (Nat × MVal)))
  | dropTemp
deriving DecidableEq

/-- The operation sequence of `copy_update` (local-fields path). -/
def copyOps (objs : List MObj) (fields : List Nat) : List SqlOp :=
  [.dropIfExists, .createTemp, .copyFrom (copyRows objs fields),
   .analyzeTemp, .updateJoin (copyRows objs fields), .dropTemp]

/-- Return value of `copy_update` (local-fields path): the cursor's
reported row count captured right after the `UPDATE ... FROM staging`
statement. -/
def copyResult (rc : SqlOp → Nat) (objs : List MObj) (fields : List Nat) : Nat :=
  rc (.updateJoin (copyRows objs fields))

/-! ## query.py: fast_update argument validation and batch size -/

/-- The distinct `ValueError`s `FastUpdateQuerySet.fast_update` can
raise during its sanity checks, in source order. -/
inductive FUErr where
  | batchSize | noFields | nullPk | notConcrete | pkField
deriving DecidableEq, Repr

/-- A model instance as seen by the sanity checks: its primary key
(None or set) and whether any named field on it holds a
deferred-expression value. -/
structure VObj where
  pk : Option Int
  hasExpression : Bool
deriving DecidableEq, Repr

/-- A resolved field as seen by the sanity checks. -/
structure VField where
  concrete : Bool
  manyToMany : Bool
  primaryKey : Bool
deriving DecidableEq, Repr

/-- The sanity checks of `FastUpdateQuerySet.fast_update`, in source
order; `none` means validation passes and the update proceeds.
The `hasExpression` flag of the objects is never inspected: the source
carries only a `FIXME: do f-expression check here?` comment, and no
duplicate-pk check exists either. -/
def fastUpdateCheck (objs : List VObj) (fields : List VField)
    (batchSize : Option Int) : Option FUErr :=
  if (match batchSize with | some b => decide (b < 0) | none => false) then
    some .batchSize
  else if fields.isEmpty then some .noFields
  else if objs.any (fun o => o.pk = none) then some .nullPk
  else if fields.any (fun f => !f.concrete || f.manyToMany) then some .notConcrete
  else if fields.any (fun f => f.primaryKey) then some .pkField
  else none

/-- `_fast_update`'s effective batch size:
`min(batch_size or 2**31, max_batch_size)` — Python treats both `None`
and `0` as falsy, so both fall back to `2**31`. -/
def effectiveBatchSize (batchSize : Option Int) (maxBatchSize : Int) : Int :=
  min (match batchSize with
       | none => 2 ^ 31
       | some b => if b = 0 then 2 ^ 31 else b)
    maxBatchSize

/-! ## copy.py: values and TEXT-format tokens -/

/-- NULL placeholder for COPY FROM. -/
def NULL : String := "\\N"

/-- SQL NULL keyword (used for nulls nested inside arrays). -/
def SQL_NULL : String := "NULL"

/-- Lazy placeholder: NUL, not allowed in postgres data. -/
def LAZY_PLACEHOLDER : String := "\u0000"

/-- Left curly brace as a string. -/
def lbrace : String := "\x7b"

/-- Right curly brace as a string. -/
def rbrace : String := "\x7d"

/-- The canonical empty array token. -/
def emptyArrayToken : String := lbrace ++ rbrace

/-- A Python value handed to the array encoder: `None`, a scalar, or a
(possibly nested) sequence. Python's `list` and `tuple` are collapsed
into the single `arr` constructor; the only place in the source where
they differ is the literal comparison `v == []` in `is_empty_array`
(false for the empty tuple), which none of the checked claims touch. -/
inductive PyVal where
  | null
  | scalar (n : Nat)
  | arr (es : List PyVal)

/-- Is every element of the list `None`? (Python `all(e is None for e in v)`.) -/
def allNullElems (es : List PyVal) : Bool :=
  es.all (fun e => match e with | .null => true | _ => false)

mutual

/-- `is_empty_array(v)` from copy.py: nullish array values that reduce
to a single empty array token. -/
def is_empty_array (v : PyVal) : Bool :=
  match v with
  | .arr [] => true
  | .arr (e :: t) =>
      if isEmptyAllElems (e :: t) then !(allNullElems (e :: t)) else false
  | .null => false
  | .scalar _ => false

/-- Python `all((is_empty_array(e) if isinstance(e, (list, tuple)) else e is None) for e in v)`. -/
def isEmptyAllElems (es : List PyVal) : Bool :=
  match es with
  | [] => true
  | e :: t =>
      (match e with
       | .arr es' => is_empty_array (.arr es')
       | .null => true
       | .scalar _ => false) && isEmptyAllElems t

end

mutual

/-- `_balanced(v, depth, dim)` from copy.py, with the
`Union[Tuple, None]` result serialized injectively as a string:
`None` becomes `"N"` and a tuple becomes its children wrapped in
parentheses. -/
def balShape (depth : Nat) (v : PyVal) (dim : Nat) : String :=
  match v with
  | .arr es => if depth ≤ dim then "N" else "(" ++ balShapeList depth es (dim + 1) ++ ")"
  | .null => "N"
  | .scalar _ => "N"

/-- Concatenated serialized shapes of a list of values. -/
def balShapeList (depth : Nat) (es : List PyVal) (dim : Nat) : String :=
  match es with
  | [] => ""
  | e :: t => balShape depth e dim ++ balShapeList depth t dim

end

/-- Python `len(set(xs)) < 2`: the list is empty or all elements equal. -/
def allEqualStr (xs : List String) : Bool :=
  match xs with
  | [] => true
  | a :: t => t.all (fun b => a == b)

/-- `is_balanced(v, depth)` from copy.py: the serialized depth-capped
shapes of the top-level elements must all coincide. -/
def is_balanced (v : PyVal) (depth : Nat) : Bool :=
  match v with
  | .arr es =>
      if depth ≤ 0 then true
      else allEqualStr (es.map (fun e => balShape depth e 1))
  | .null => true
  | .scalar _ => true

/-- `array_escape(v)` from copy.py, on an already stringified value:
quote and double escape backslashes and double quotes. -/
def array_escape (s : String) : String :=
  "\"" ++ ((s.replace "\\\\" "\\\\\\\\").replace "\"" "\\\\\"") ++ "\""

/-- The errors the array encoder can signal: `TypeError` for a
non-sequence / unexpected `None`, `ValueError` for an unbalanced
multi-dimensional array, or an error from the base field encoder. -/
inductive EncErr where
  | typeErr
  | unbalanced
  | encFail
deriving DecidableEq, Repr

/-- A base field encoder as consumed by `array_factory`: the encoding
function together with its `array_escape` capability flag. (The field
name and the lazy sink of the source interface do not influence the
control flow modelled here and are omitted.) -/
structure BaseEnc where
  run : PyVal → Except EncErr String
  arrayEscape : Bool

mutual

/-- `_encode_array(v, fname, lazy, dim)` built by `array_factory` in
copy.py for a base encoder `enc`, maximum dimensions `depth` and
top-level nullability `nullOk`. -/
def encodeArray (enc : BaseEnc) (depth : Nat) (nullOk : Bool)
    (v : PyVal) (dim : Nat) : Except EncErr String :=
  if dim = 0 then
    match v with
    | .null => if nullOk then .ok NULL else .error .typeErr
    | .arr es =>
        if is_empty_array (.arr es) then .ok emptyArrayToken
        else if decide (1 < depth) && !(is_balanced (.arr es) depth) then
          .error .unbalanced
        else
          match encodeArrayList enc depth nullOk es 1 with
          | .ok parts => .ok (lbrace ++ String.intercalate "," parts ++ rbrace)
          | .error e => .error e
    | .scalar _ => .error .typeErr
  else
    match v with
    | .null => .ok SQL_NULL
    | .arr es =>
        if dim < depth then
          match encodeArrayList enc depth nullOk es (dim + 1) with
          | .ok parts => .ok (lbrace ++ String.intercalate "," parts ++ rbrace)
          | .error e => .error e
        else
          match enc.run (.arr es) with
          | .ok s => .ok (if enc.arrayEscape then array_escape s else s)
          | .error e => .error e
    | .scalar n =>
        match enc.run (.scalar n) with
        | .ok s => .ok (if enc.arrayEscape then array_escape s else s)
        | .error e => .error e

/-- The generator `(encode_array(e, fname, lazy, dim) for e in v)` as
consumed by `",".join`: elements encoded left to right, first error
propagated. -/
def encodeArrayList (enc : BaseEnc) (depth : Nat) (nullOk : Bool)
    (es : List PyVal) (dim : Nat) : Except EncErr (List String) :=
  match es with
  | [] => .ok []
  | e :: t =>
      match encodeArray enc depth nullOk e dim with
      | .error err => .error err
      | .ok s =>
          match encodeArrayList enc depth nullOk t dim with
          | .error err => .error err
          | .ok r => .ok (s :: r)

end

/-! ## copy.py: binary encoders -/

/-- The byte-stage writer of a lazy entry; the binary encoders always
push `_lazy_binary`. -/
inductive LazyWriter where
  | lazyBinary
deriving DecidableEq, Repr

/-- An entry of the `lazy` sink: `(writer, raw bytes)`. -/
abbrev LazyEntry := LazyWriter × List Nat

/-- One lowercase hex digit. -/
def hexDigit (n : Nat) : Char :=
  Char.ofNat (if n < 10 then 48 + n else 87 + n)

/-- Two lowercase hex digits of one byte. -/
def byteHex (b : Nat) : String :=
  String.mk [hexDigit (b / 16 % 16), hexDigit (b % 16)]

/-- `bytes.hex()`: lowercase hex digits of a byte string. -/
def bytesHex (v : List Nat) : String :=
  String.join (v.map byteHex)

/-- The `Binary` encoder of copy.py on a bytes value: inline
`'\\\\x' + v.hex()` up to 4096 bytes, otherwise a placeholder plus a
`(writer, raw bytes)` entry appended to the lazy sink. -/
def Binary (v : List Nat) (lazy : List LazyEntry) : String × List LazyEntry :=
  if 4096 < v.length then
    ("\\\\x" ++ LAZY_PLACEHOLDER, lazy ++ [(.lazyBinary, v)])
  else
    ("\\\\x" ++ bytesHex v, lazy)

/-- The `BinaryOrNone` encoder of copy.py: as `Binary`, with `None`
mapped to the NULL token. -/
def BinaryOrNone (v : Option (List Nat)) (lazy : List LazyEntry) :
    String × List LazyEntry :=
  match v with
  | none => (NULL, lazy)
  | some b =>
      if 4096 < b.length then
        ("\\\\x" ++ LAZY_PLACEHOLDER, lazy ++ [(.lazyBinary, b)])
      else
        ("\\\\x" ++ bytesHex b, lazy)

/-! ## Specification-side cost formulas (for the refinement claim C5) -/

/-- `base_update_cost(n) = constant + log2(n)` with constant 10, as the
specification words it. -/
noncomputable def base_update_cost (n : Nat) : ℝ := 10 + Real.logb 2 n

/-- The cost predictor exactly as claim C5 words it: flat cost
`objects × (field_count + base_update_cost)`, merged cost
`Σ over residues (base_update_cost + field_count)` plus
`Σ over merged groups (base_update_cost(group_size) + field_count)`,
result `merged / flat`. -/
noncomputable def predictorSpecC5 (objs : List MObj) (fields : List Nat)
    (merged_updates : MuT) (residues : FrT) : ℝ :=
  let flat : ℝ := (objs.length : ℝ) * ((fields.length : ℝ) + base_update_cost 1)
  let merged : ℝ :=
    ((residues.map (fun _ => base_update_cost 1 + (fields.length : ℝ))).sum)
    + ((merged_updates.map
        (fun e => base_update_cost e.1.card + (fields.length : ℝ))).sum)
  merged / flat

/-- The amended cost formula: as `predictorSpecC5`, but each residue
and each merged group is charged for the field-value entries it
actually carries instead of the full field count. -/
noncomputable def predictorEntrywise (objs : List MObj) (fields : List Nat)
    (merged_updates : MuT) (residues : FrT) : ℝ :=
  let flat : ℝ := (objs.length : ℝ) * ((fields.length : ℝ) + base_update_cost 1)
  let merged : ℝ :=
    ((residues.map (fun e => base_update_cost 1 + (e.2.length : ℝ))).sum)
    + ((merged_updates.map
        (fun e => base_update_cost e.1.card + (e.2.length : ℝ))).sum)
  merged / flat

/-! ## Per-field views of the merge output (for C3) -/

/-- Keys of the entries of a nested dict whose inner dict mentions
field `f`. -/
def domF {κ : Type} [DecidableEq κ] (l : List (κ × List (Nat × MVal)))
    (f : Nat) : List κ :=
  (l.filter (fun e => ((alGet e.2 f).isSome : Bool))).map Prod.fst

/-- The update groups of `_merge_values`' output that carry a value for
field `f`: the pk sets of the merged groups mentioning `f`, followed by
one singleton per residue object mentioning `f`. -/
def groupsForField (r : MuT × FrT) (f : Nat) : List (Finset Nat) :=
  domF r.1 f ++ (domF r.2 f).map (fun p => ({p} : Finset Nat))

/-- All update groups of `_merge_values`' output, over all fields: the
pk sets of all merged groups followed by one singleton per residue
object. -/
def allGroups (r : MuT × FrT) : List (Finset Nat) :=
  r.1.map Prod.fst ++ r.2.map (fun e => ({e.1} : Finset Nat))

/-- All pks stored in a step-1 accumulator, in order. -/
def accuFoot (accu : AccuT) : List Nat :=
  (accu.map Prod.snd).flatten

/-- Multiset of all pks covered by the update groups for field `f` in a
`(merged_updates, residues)` state: the pks of the merged groups
mentioning `f` plus the residue pks mentioning `f`. -/
def fieldFoot (s : MuT × FrT) (f : Nat) : Multiset Nat :=
  ((↑(domF s.1 f) : Multiset (Finset Nat)).map Finset.val).sum
    + (↑(domF s.2 f) : Multiset Nat)

/-! ## Batch transformations (for C6) -/

/-- Replace the value of field `f` on the object at position `i` of the
batch with `w` (it leaves the batch unchanged when `i` is out of
range). -/
def replaceFieldVal (objs : List MObj) (i f : Nat) (w : MVal) : List MObj :=
  match objs.get? i with
  | none => objs
  | some o => objs.set i ⟨o.pk, o.vals.set f w⟩

/-! ## Concrete example inputs used by counterexamples and witnesses -/

/-- Three objects over two fields: field 0 holds 10/10/11 and field 1
holds 2/3/3, so each field merges a different pair of pks. -/
def objs3 : List MObj :=
  [⟨1, [⟨true, 10⟩, ⟨true, 2⟩]⟩,
   ⟨2, [⟨true, 10⟩, ⟨true, 3⟩]⟩,
   ⟨3, [⟨true, 11⟩, ⟨true, 3⟩]⟩]

/-- Four objects sharing one value on field 0: the merged plan wins. -/
def objs4 : List MObj :=
  [⟨1, [⟨true, 5⟩]⟩, ⟨2, [⟨true, 5⟩]⟩, ⟨3, [⟨true, 5⟩]⟩, ⟨4, [⟨true, 5⟩]⟩]

/-- Eight objects over two fields: on field 0 pks 1-6 pair up and pks
7, 8 hold unique values; on field 1 pks 1-6 share one value and pks
7, 8 hold unique values. The merged plan is chosen. -/
def objsB : List MObj :=
  [⟨1, [⟨true, 10⟩, ⟨true, 20⟩]⟩,
   ⟨2, [⟨true, 10⟩, ⟨true, 20⟩]⟩,
   ⟨3, [⟨true, 11⟩, ⟨true, 20⟩]⟩,
   ⟨4, [⟨true, 11⟩, ⟨true, 20⟩]⟩,
   ⟨5, [⟨true, 12⟩, ⟨true, 20⟩]⟩,
   ⟨6, [⟨true, 12⟩, ⟨true, 20⟩]⟩,
   ⟨7, [⟨true, 13⟩, ⟨true, 21⟩]⟩,
   ⟨8, [⟨true, 14⟩, ⟨true, 22⟩]⟩]

/-- `objsB` after duplicating object 8's field-0 value onto object 7:
strictly more duplication, yet the flat plan is chosen. -/
def objsA : List MObj := replaceFieldVal objsB 6 0 ⟨true, 14⟩

/-- A cursor oracle whose every statement reports 0 affected rows
(nothing actually changed in the table). -/
def db0 : Stmt → Nat := fun _ => 0

/-- A perfectly ordinary updatable field. -/
def okVField : VField := ⟨true, false, false⟩

/-- Two objects sharing primary key 1, both flagged as holding a
deferred-expression value. -/
def dupExprVObjs : List VObj := [⟨some 1, true⟩, ⟨some 1, true⟩]

/-- A base encoder that rejects every value: used to show that the
array encoder answers before ever consulting the base encoder. -/
def rejectEnc : BaseEnc := ⟨fun _ => .error .encFail, true⟩

/-- An unbalanced two-dimensional array that collapses to the empty
array token: `[[], [[], []]]`. -/
def vEmptyUnbalanced : PyVal := .arr [.arr [], .arr [.arr [], .arr []]]

/-- The nested array value `[[], None]` of spec scenario 3. -/
def vEmptyNone : PyVal := .arr [.arr [], .null]

/-- An unbalanced two-dimensional array that does not collapse:
`[[1], [2, 3]]`. -/
def vUnbalanced : PyVal := .arr [.arr [.scalar 1], .arr [.scalar 2, .scalar 3]]

/-! ## Supporting lemmas -/

lemma alGet_alSet_self {α β : Type} [DecidableEq α] (l : List (α × β)) (k : α) (v : β) :
    alGet (alSet l k v) k = some v := by
  induction l with
  | nil => simp [alGet, alSet]
  | cons e t ih =>
      obtain ⟨a, b⟩ := e
      by_cases h : a = k
      · subst h; simp [alGet, alSet]
      · simp [alGet, alSet, h, ih]

lemma alGet_alSet_ne {α β : Type} [DecidableEq α] (l : List (α × β)) (k k' : α) (v : β)
    (h : k' ≠ k) : alGet (alSet l k v) k' = alGet l k' := by
  induction l with
  | nil => simp [alGet, alSet, Ne.symm h]
  | cons e t ih =>
      obtain ⟨a, b⟩ := e
      by_cases ha : a = k
      · subst ha; simp [alGet, alSet, Ne.symm h]
      · by_cases ha' : a = k'
        · subst ha'; simp [alGet, alSet, ha]
        · simp [alGet, alSet, ha, ha', ih]

lemma mem_alSet {α β : Type} [DecidableEq α] (l : List (α × β)) (k : α) (v : β)
    (e : α × β) (h : e ∈ alSet l k v) : e ∈ l ∨ e = (k, v) := by
  induction l with
  | nil => simp [alSet] at h; simp [h]
  | cons x t ih =>
      obtain ⟨a, b⟩ := x
      by_cases ha : a = k
      · subst ha
        simp [alSet] at h
        rcases h with h | h
        · exact Or.inr (by simp [h])
        · exact Or.inl (by simp [h])
      · simp [alSet, ha] at h
        rcases h with h | h
        · exact Or.inl (by simp [h])
        · rcases ih h with hh | hh
          · exact Or.inl (by simp [hh])
          · exact Or.inr hh

lemma alGet_none_iff {α β : Type} [DecidableEq α] (l : List (α × β)) (k : α) :
    alGet l k = none ↔ k ∉ l.map Prod.fst := by
  induction l with
  | nil => simp [alGet]
  | cons e t ih =>
      obtain ⟨a, b⟩ := e
      by_cases ha : a = k
      · subst ha; simp [alGet]
      · simp [alGet, ha, ih, Ne.symm ha]

lemma alGet_some_mem {α β : Type} [DecidableEq α] (l : List (α × β)) (k : α) (v : β)
    (h : alGet l k = some v) : (k, v) ∈ l := by
  induction l with
  | nil => simp [alGet] at h
  | cons e t ih =>
      obtain ⟨a, b⟩ := e
      by_cases ha : a = k
      · subst ha
        simp [alGet] at h
        simp [h]
      · simp [alGet, ha] at h
        exact List.mem_cons_of_mem _ (ih h)

lemma alSet_map_fst_of_mem {α β : Type} [DecidableEq α] (l : List (α × β)) (k : α) (v : β)
    (h : (alGet l k).isSome) : (alSet l k v).map Prod.fst = l.map Prod.fst := by
  induction l with
  | nil => simp [alGet] at h
  | cons e t ih =>
      obtain ⟨a, b⟩ := e
      by_cases ha : a = k
      · subst ha; simp [alSet]
      · simp [alGet, ha] at h
        simp [alSet, ha, ih h]

lemma alSet_map_fst_of_none {α β : Type} [DecidableEq α] (l : List (α × β)) (k : α) (v : β)
    (h : alGet l k = none) : (alSet l k v).map Prod.fst = l.map Prod.fst ++ [k] := by
  induction l with
  | nil => simp [alSet]
  | cons e t ih =>
      obtain ⟨a, b⟩ := e
      by_cases ha : a = k
      · subst ha; simp [alGet] at h
      · simp [alGet, ha] at h
        simp [alSet, ha, ih h]

lemma alSet_keys_nodup {α β : Type} [DecidableEq α] (l : List (α × β)) (k : α) (v : β)
    (h : (l.map Prod.fst).Nodup) : ((alSet l k v).map Prod.fst).Nodup := by
  rcases ho : alGet l k with _ | w
  · rw [alSet_map_fst_of_none l k v ho]
    simp [List.nodup_append, h, (alGet_none_iff l k).mp ho]
  · rw [alSet_map_fst_of_mem l k v (by simp [ho])]
    exact h

lemma alSet_cons_self {α β : Type} [DecidableEq α] (a : α) (b : β) (t : List (α × β)) (v : β) :
    alSet ((a, b) :: t) a v = (a, v) :: t := by
  simp [alSet]

lemma alSet_cons_ne {α β : Type} [DecidableEq α] (a : α) (b : β) (t : List (α × β)) (k : α)
    (v : β) (h : a ≠ k) : alSet ((a, b) :: t) k v = (a, b) :: alSet t k v := by
  simp [alSet, h]

lemma domF_cons (κ : Type) [DecidableEq κ] (a : κ) (b : List (Nat × MVal))
    (t : List (κ × List (Nat × MVal))) (g : Nat) :
    domF ((a, b) :: t) g
      = if (alGet b g).isSome then a :: domF t g else domF t g := by
  simp only [domF, List.filter_cons]
  split <;> simp

lemma domF_alSet_status_eq {κ : Type} [DecidableEq κ]
    (l : List (κ × List (Nat × MVal))) (k : κ) (d : List (Nat × MVal)) (g : Nat)
    (h : (alGet d g).isSome = (alGet ((alGet l k).getD []) g).isSome) :
    domF (alSet l k d) g = domF l g := by
  induction l with
  | nil =>
      simp [alGet] at h
      simp [alSet, domF, List.filter, h]
  | cons e t ih =>
      obtain ⟨a, b⟩ := e
      by_cases ha : a = k
      · subst ha
        simp [alGet] at h
        rw [alSet_cons_self, domF_cons, domF_cons, h]
      · have h' : (alGet d g).isSome = (alGet ((alGet t k).getD []) g).isSome := by
          simpa [alGet, ha] using h
        rw [alSet_cons_ne _ _ _ _ _ ha, domF_cons, domF_cons, ih h']

lemma domF_alSet_new_mem {κ : Type} [DecidableEq κ]
    (l : List (κ × List (Nat × MVal))) (k : κ) (d : List (Nat × MVal)) (f : Nat)
    (hd : (alGet d f).isSome = true) (hk : k ∉ domF l f) :
    (↑(domF (alSet l k d) f) : Multiset κ) = k ::ₘ (↑(domF l f) : Multiset κ) := by
  induction l with
  | nil => simp [alSet, domF, List.filter, hd]
  | cons e t ih =>
      obtain ⟨a, b⟩ := e
      rw [domF_cons] at hk
      by_cases ha : a = k
      · subst ha
        have hb : (alGet b f).isSome = false := by
          rcases hs : (alGet b f).isSome with _ | _
          · rfl
          · rw [hs] at hk; simp at hk
        rw [alSet_cons_self, domF_cons, domF_cons, hd, hb]
        simp
      · rw [alSet_cons_ne _ _ _ _ _ ha, domF_cons, domF_cons]
        rcases hs : (alGet b f).isSome with _ | _ <;> rw [hs] at hk <;>
          simp only [Bool.false_eq_true, if_false, if_true, List.mem_cons, not_or] at hk ⊢
        · exact ih hk
        · rw [← Multiset.cons_coe, ← Multiset.cons_coe, ih hk.2, Multiset.cons_swap]

lemma domF_alAdd_ne {κ : Type} [DecidableEq κ]
    (l : List (κ × List (Nat × MVal))) (k : κ) (f g : Nat) (v : MVal) (hg : g ≠ f) :
    domF (alAdd l k f v) g = domF l g := by
  apply domF_alSet_status_eq
  rw [alGet_alSet_ne _ _ _ _ hg]

lemma domF_alAdd_self {κ : Type} [DecidableEq κ]
    (l : List (κ × List (Nat × MVal))) (k : κ) (f : Nat) (v : MVal)
    (hk : k ∉ domF l f) :
    (↑(domF (alAdd l k f v) f) : Multiset κ) = k ::ₘ (↑(domF l f) : Multiset κ) := by
  apply domF_alSet_new_mem
  · rw [alGet_alSet_self]; rfl
  · exact hk

lemma alGet_cons_self {α β : Type} [DecidableEq α] (a : α) (b : β) (t : List (α × β)) :
    alGet ((a, b) :: t) a = some b := by
  simp [alGet]

lemma alGet_cons_ne {α β : Type} [DecidableEq α] (a : α) (b : β) (t : List (α × β))
    (k : α) (h : a ≠ k) : alGet ((a, b) :: t) k = alGet t k := by
  simp [alGet, h]

lemma accuFoot_update (accu : AccuT) (v : MVal) (pk : Nat) :
    List.Perm (accuFoot (alSet accu v (((alGet accu v).getD []) ++ [pk])))
      (pk :: accuFoot accu) := by
  induction accu with
  | nil => simp [alGet, alSet, accuFoot]
  | cons e t ih =>
      obtain ⟨w, ps⟩ := e
      by_cases hw : w = v
      · subst hw
        rw [alGet_cons_self, Option.getD_some, alSet_cons_self]
        simp only [accuFoot, List.map_cons, List.flatten_cons, List.append_assoc,
          List.singleton_append]
        exact List.perm_middle
      · rw [alGet_cons_ne _ _ _ _ hw, alSet_cons_ne _ _ _ _ _ hw]
        simp only [accuFoot, List.map_cons, List.flatten_cons]
        exact ((ih.append_left ps).trans List.perm_middle)

lemma step1Field_domF_ne (objs : List MObj) (f g : Nat) (hg : g ≠ f) :
    ∀ (accu : AccuT) (fr : FrT),
      domF (step1Field objs f (accu, fr)).2 g = domF fr g := by
  induction objs with
  | nil => intro accu fr; simp [step1Field]
  | cons o t ih =>
      intro accu fr
      simp only [step1Field, List.foldl_cons] at ih ⊢
      by_cases hh : (o.val f).hashable
      · simp only [hh, if_true]
        exact ih _ _
      · simp only [hh, Bool.false_eq_true, if_false]
        rw [ih _ _, domF_alAdd_ne _ _ _ _ _ hg]

lemma step1Field_foot (objs : List MObj) (f : Nat) :
    ∀ (accu : AccuT) (fr : FrT),
      (objs.map MObj.pk).Nodup →
      (∀ o ∈ objs, o.pk ∉ domF fr f) →
      (↑(accuFoot (step1Field objs f (accu, fr)).1)
        + ↑(domF (step1Field objs f (accu, fr)).2 f) : Multiset Nat)
        = ↑(accuFoot accu) + ↑(domF fr f) + ↑(objs.map MObj.pk) := by
  induction objs with
  | nil => intro accu fr _ _; simp [step1Field]
  | cons o t ih =>
      intro accu fr hnd hmem
      simp only [List.map_cons, List.nodup_cons] at hnd
      simp only [step1Field, List.foldl_cons] at ih ⊢
      by_cases hh : (o.val f).hashable
      · simp only [hh, if_true]
        rw [ih _ _ hnd.2 (fun o' ho' => hmem o' (List.mem_cons_of_mem _ ho'))]
        rw [Multiset.coe_eq_coe.mpr (accuFoot_update accu (o.val f) o.pk)]
        simp only [List.map_cons, ← Multiset.cons_coe]
        rw [Multiset.cons_add]
        rw [show (↑(accuFoot accu) + ↑(domF fr f) + (o.pk ::ₘ ↑(t.map MObj.pk))
              : Multiset Nat)
            = o.pk ::ₘ (↑(accuFoot accu) + ↑(domF fr f) + ↑(t.map MObj.pk)) by
          rw [Multiset.add_cons]]
        rfl
      · simp only [hh, Bool.false_eq_true, if_false]
        have hfr : o.pk ∉ domF fr f := hmem o (List.mem_cons_self o t)
        have hset : (↑(domF (alAdd fr o.pk f (o.val f)) f) : Multiset Nat)
            = o.pk ::ₘ ↑(domF fr f) := domF_alAdd_self fr o.pk f (o.val f) hfr
        have hmem' : ∀ o' ∈ t, o'.pk ∉ domF (alAdd fr o.pk f (o.val f)) f := by
          intro o' ho'
          have : (o'.pk : Nat) ∉ (o.pk ::ₘ (↑(domF fr f) : Multiset Nat)) := by
            rw [Multiset.mem_cons]
            push_neg
            constructor
            · intro hcon
              exact hnd.1 (by rw [← hcon]; exact List.mem_map_of_mem MObj.pk ho')
            · rw [Multiset.mem_coe]
              exact hmem o' (List.mem_cons_of_mem _ ho')
          rw [← hset] at this
          rw [← Multiset.mem_coe]
          exact this
        rw [ih _ _ hnd.2 hmem', hset]
        simp only [List.map_cons, ← Multiset.cons_coe]
        rw [Multiset.add_cons, Multiset.add_cons]
        rfl

lemma step1Field_entries_ne (objs : List MObj) (f : Nat) :
    ∀ (accu : AccuT) (fr : FrT), (∀ e ∈ accu, e.2 ≠ []) →
      ∀ e ∈ (step1Field objs f (accu, fr)).1, e.2 ≠ [] := by
  induction objs with
  | nil => intro accu fr h; simpa [step1Field] using h
  | cons o t ih =>
      intro accu fr h
      simp only [step1Field, List.foldl_cons] at ih ⊢
      by_cases hh : (o.val f).hashable
      · simp only [hh, if_true]
        refine ih _ _ ?_
        intro e he
        rcases mem_alSet _ _ _ _ he with he' | he'
        · exact h e he'
        · rw [he']; simp
      · simp only [hh, Bool.false_eq_true, if_false]
        exact ih _ _ h

lemma step1go_preserve (objs : List MObj) (fields : List Nat) (f : Nat)
    (hf : f ∉ fields) :
    ∀ s : MpT × FrT,
      alGet (fields.foldl (step1Step objs) s).1 f = alGet s.1 f ∧
      domF (fields.foldl (step1Step objs) s).2 f = domF s.2 f := by
  induction fields with
  | nil => intro s; exact ⟨rfl, rfl⟩
  | cons g gs ih =>
      intro s
      simp only [List.mem_cons, not_or] at hf
      simp only [List.foldl_cons]
      obtain ⟨h1, h2⟩ := ih hf.2 (step1Step objs s g)
      refine ⟨?_, ?_⟩
      · rw [h1]
        simp only [step1Step]
        exact alGet_alSet_ne _ _ _ _ hf.1
      · rw [h2]
        simp only [step1Step]
        exact step1Field_domF_ne objs g f hf.1 _ _

lemma step1go_keys_nodup (objs : List MObj) (fields : List Nat) :
    ∀ s : MpT × FrT, (s.1.map Prod.fst).Nodup →
      ((fields.foldl (step1Step objs) s).1.map Prod.fst).Nodup := by
  induction fields with
  | nil => intro s h; exact h
  | cons g gs ih =>
      intro s h
      simp only [List.foldl_cons]
      refine ih _ ?_
      simp only [step1Step]
      exact alSet_keys_nodup _ _ _ h

lemma step1_char (objs : List MObj) (fields : List Nat) (f : Nat)
    (hnd : fields.Nodup) (hpk : (objs.map MObj.pk).Nodup) (hf : f ∈ fields) :
    ∃ accu, alGet (step1 objs fields).1 f = some accu ∧
      (∀ e ∈ accu, e.2 ≠ []) ∧
      ((↑(accuFoot accu) + ↑(domF (step1 objs fields).2 f)) : Multiset Nat)
        = ↑(objs.map MObj.pk) := by
  obtain ⟨pre, post, rfl⟩ := List.append_of_mem hf
  have hsplit := List.nodup_append.mp hnd
  have hfpre : f ∉ pre := by
    intro hcon
    exact hsplit.2.2 hcon (List.mem_cons_self f post)
  have hfpost : f ∉ post := (List.nodup_cons.mp hsplit.2.1).1
  have hstep : step1 objs (pre ++ f :: post)
      = post.foldl (step1Step objs)
          (step1Step objs (pre.foldl (step1Step objs) ([], [])) f) := by
    simp [step1, List.foldl_append]
  obtain ⟨hpre1, hpre2⟩ := step1go_preserve objs pre f hfpre ([], [])
  set s1 := pre.foldl (step1Step objs) (([], []) : MpT × FrT) with hs1
  have hget : alGet s1.1 f = none := by simpa [alGet] using hpre1
  have hdom : domF s1.2 f = [] := by simpa [domF] using hpre2
  set r := step1Field objs f ([], s1.2) with hr
  have hs2 : step1Step objs s1 f = (alSet s1.1 f r.1, r.2) := by
    simp only [step1Step, hget, Option.getD_none, hr]
  obtain ⟨hpost1, hpost2⟩ := step1go_preserve objs post f hfpost
      (step1Step objs s1 f)
  refine ⟨r.1, ?_, ?_, ?_⟩
  · rw [hstep, hpost1, hs2]
    exact alGet_alSet_self _ _ _
  · refine step1Field_entries_ne objs f [] s1.2 ?_
    intro e he
    simp at he
  · have hfoot := step1Field_foot objs f [] s1.2 hpk ?_
    · rw [hstep, hpost2, hs2]
      rw [show ((alSet s1.1 f r.1, r.2) : MpT × FrT).2 = r.2 from rfl]
      rw [← hr] at hfoot
      rw [hfoot, hdom]
      simp [accuFoot]
    · intro o ho
      rw [hdom]
      simp

lemma multiset_mem_le_sum (L : List (Multiset Nat)) (m : Multiset Nat) (h : m ∈ L) :
    m ≤ L.sum := by
  induction L with
  | nil => simp at h
  | cons a t ih =>
      rcases List.mem_cons.mp h with h' | h'
      · rw [h', List.sum_cons]
        exact Multiset.le_add_right _ _
      · rw [List.sum_cons]
        exact le_trans (ih h') (Multiset.le_add_left _ _)

lemma fieldFoot_eq_of_domF_eq (s s' : MuT × FrT) (f : Nat)
    (h1 : domF s'.1 f = domF s.1 f) (h2 : domF s'.2 f = domF s.2 f) :
    fieldFoot s' f = fieldFoot s f := by
  simp only [fieldFoot, h1, h2]

lemma step2Entry_preserve_ne (g f : Nat) (hg : g ≠ f) (s : MuT × FrT)
    (e : MVal × List Nat) :
    domF (step2Entry g s e).1 f = domF s.1 f ∧
    domF (step2Entry g s e).2 f = domF s.2 f := by
  obtain ⟨v, ps⟩ := e
  rcases ps with _ | ⟨p, t⟩
  · exact ⟨domF_alAdd_ne _ _ _ _ _ (Ne.symm hg), rfl⟩
  · rcases t with _ | ⟨q, t'⟩
    · exact ⟨rfl, domF_alAdd_ne _ _ _ _ _ (Ne.symm hg)⟩
    · exact ⟨domF_alAdd_ne _ _ _ _ _ (Ne.symm hg), rfl⟩

lemma step2_fold_ne (g f : Nat) (hg : g ≠ f) (E : List (MVal × List Nat)) :
    ∀ s : MuT × FrT,
      domF (E.foldl (step2Entry g) s).1 f = domF s.1 f ∧
      domF (E.foldl (step2Entry g) s).2 f = domF s.2 f := by
  induction E with
  | nil => intro s; exact ⟨rfl, rfl⟩
  | cons e t ih =>
      intro s
      simp only [List.foldl_cons]
      obtain ⟨h1, h2⟩ := ih (step2Entry g s e)
      obtain ⟨h1', h2'⟩ := step2Entry_preserve_ne g f hg s e
      exact ⟨h1.trans h1', h2.trans h2'⟩

lemma step2Entry_foot_self (f : Nat) (s : MuT × FrT) (v : MVal) (ps : List Nat)
    (hne : ps ≠ []) (hnd : ps.Nodup)
    (hdisj : ∀ p ∈ ps, p ∉ fieldFoot s f) :
    fieldFoot (step2Entry f s (v, ps)) f = fieldFoot s f + ↑ps := by
  rcases ps with _ | ⟨p, t⟩
  · exact absurd rfl hne
  · rcases t with _ | ⟨q, t'⟩
    · -- singleton group: transferred to the residues
      have hp : p ∉ domF s.2 f := by
        intro hcon
        refine hdisj p (by simp) ?_
        simp only [fieldFoot]
        exact Multiset.mem_add.mpr (Or.inr (Multiset.mem_coe.mpr hcon))
      show fieldFoot (s.1, alAdd s.2 p f v) f = fieldFoot s f + ↑[p]
      simp only [fieldFoot]
      rw [domF_alAdd_self s.2 p f v hp]
      rw [Multiset.add_cons]
      rw [show ((↑[p] : Multiset Nat)) = p ::ₘ 0 by rfl]
      rw [Multiset.add_cons, add_zero]
    · -- larger group: merged update keyed by the frozenset
      set ps := p :: q :: t' with hps
      have hK : ps.toFinset ∉ domF s.1 f := by
        intro hcon
        have hval : ps.toFinset.1 ∈ ((↑(domF s.1 f) : Multiset (Finset Nat)).map Finset.val) := by
          exact Multiset.mem_map_of_mem _ (Multiset.mem_coe.mpr hcon)
        have hle : ps.toFinset.1 ≤ ((↑(domF s.1 f) : Multiset (Finset Nat)).map Finset.val).sum := by
          rw [show ((↑(domF s.1 f) : Multiset (Finset Nat)).map Finset.val)
              = ↑((domF s.1 f).map Finset.val) from Multiset.map_coe _ _] at hval ⊢
          rw [Multiset.sum_coe]
          exact multiset_mem_le_sum _ _ (Multiset.mem_coe.mp hval)
        have hpmem : (p : Nat) ∈ ps.toFinset.1 := by
          rw [List.toFinset_val]
          exact Multiset.mem_coe.mpr (List.mem_dedup.mpr (by simp [hps]))
        refine hdisj p (by simp [hps]) ?_
        simp only [fieldFoot]
        exact Multiset.mem_add.mpr (Or.inl (Multiset.mem_of_le hle hpmem))
      show fieldFoot (alAdd s.1 ps.toFinset f v, s.2) f = fieldFoot s f + ↑ps
      simp only [fieldFoot]
      rw [domF_alAdd_self s.1 ps.toFinset f v hK]
      rw [Multiset.map_cons, Multiset.sum_cons]
      rw [List.toFinset_val, List.dedup_eq_self.mpr hnd]
      abel

lemma step2_fold_self (f : Nat) (E : List (MVal × List Nat)) :
    ∀ s : MuT × FrT,
      (∀ e ∈ E, e.2 ≠ []) →
      ((E.map Prod.snd).flatten).Nodup →
      (∀ p ∈ (E.map Prod.snd).flatten, p ∉ fieldFoot s f) →
      fieldFoot (E.foldl (step2Entry f) s) f
        = fieldFoot s f + ↑((E.map Prod.snd).flatten) := by
  induction E with
  | nil => intro s _ _ _; simp
  | cons e t ih =>
      intro s hne hnd hdisj
      obtain ⟨v, ps⟩ := e
      simp only [List.map_cons, List.flatten_cons] at hnd hdisj ⊢
      have hsplit := List.nodup_append.mp hnd
      have hfoot1 : fieldFoot (step2Entry f s (v, ps)) f = fieldFoot s f + ↑ps :=
        step2Entry_foot_self f s v ps (hne (v, ps) (by simp)) hsplit.1
          (fun p hp => hdisj p (List.mem_append.mpr (Or.inl hp)))
      simp only [List.foldl_cons]
      rw [ih (step2Entry f s (v, ps))
          (fun e' he' => hne e' (List.mem_cons_of_mem _ he'))
          hsplit.2.1 ?_]
      · rw [hfoot1, ← Multiset.coe_add, add_assoc]
      · intro p hp
        rw [hfoot1]
        intro hcon
        rcases Multiset.mem_add.mp hcon with hc | hc
        · exact hdisj p (List.mem_append.mpr (Or.inr hp)) hc
        · exact hsplit.2.2 (Multiset.mem_coe.mp hc) hp

lemma step2go_preserve (f : Nat) (P : List (Nat × AccuT)) (hP : f ∉ P.map Prod.fst) :
    ∀ s : MuT × FrT,
      domF (P.foldl (fun s e => e.2.foldl (step2Entry e.1) s) s).1 f = domF s.1 f ∧
      domF (P.foldl (fun s e => e.2.foldl (step2Entry e.1) s) s).2 f = domF s.2 f := by
  induction P with
  | nil => intro s; exact ⟨rfl, rfl⟩
  | cons e t ih =>
      intro s
      simp only [List.map_cons, List.mem_cons, not_or] at hP
      simp only [List.foldl_cons]
      obtain ⟨h1, h2⟩ := ih hP.2 (e.2.foldl (step2Entry e.1) s)
      obtain ⟨h1', h2'⟩ := step2_fold_ne e.1 f (fun hc => hP.1 hc.symm) e.2 s
      exact ⟨h1.trans h1', h2.trans h2'⟩

lemma step2_foot (mp : MpT) (fr0 : FrT) (f : Nat) (accu : AccuT)
    (hkeys : (mp.map Prod.fst).Nodup)
    (hget : alGet mp f = some accu)
    (hne : ∀ e ∈ accu, e.2 ≠ [])
    (hnodup : ((↑(accuFoot accu) + ↑(domF fr0 f)) : Multiset Nat).Nodup) :
    fieldFoot (step2 mp fr0) f = ↑(accuFoot accu) + ↑(domF fr0 f) := by
  obtain ⟨P1, P2, hmp⟩ := List.append_of_mem (alGet_some_mem mp f accu hget)
  subst hmp
  have hkeys' : f ∉ P1.map Prod.fst ∧ f ∉ P2.map Prod.fst := by
    simp only [List.map_append, List.map_cons] at hkeys
    have hsplit := List.nodup_append.mp hkeys
    refine ⟨fun hc => hsplit.2.2 hc (by simp), (List.nodup_cons.mp hsplit.2.1).1⟩
  have hstep : step2 (P1 ++ (f, accu) :: P2) fr0
      = P2.foldl (fun s e => e.2.foldl (step2Entry e.1) s)
          (accu.foldl (step2Entry f)
            (P1.foldl (fun s e => e.2.foldl (step2Entry e.1) s) ([], fr0))) := by
    simp [step2, List.foldl_append]
  set s1 := P1.foldl (fun s e => e.2.foldl (step2Entry e.1) s)
      (([], fr0) : MuT × FrT) with hs1
  obtain ⟨hp11, hp12⟩ := step2go_preserve f P1 hkeys'.1 ([], fr0)
  have hfoot1 : fieldFoot s1 f = ↑(domF fr0 f) := by
    simp only [fieldFoot, hp11, hp12]
    simp [domF]
  have hsplitn := Multiset.nodup_add.mp hnodup
  have hfoot2 : fieldFoot (accu.foldl (step2Entry f) s1) f
      = ↑(domF fr0 f) + ↑(accuFoot accu) := by
    rw [step2_fold_self f accu s1 hne
        (by rw [← Multiset.coe_nodup]; exact hsplitn.1) ?_]
    · rw [hfoot1]; rfl
    · intro p hp
      rw [hfoot1]
      intro hc
      exact Multiset.disjoint_left.mp hsplitn.2.2 (Multiset.mem_coe.mpr hp) hc
  obtain ⟨hp21, hp22⟩ := step2go_preserve f P2 hkeys'.2 (accu.foldl (step2Entry f) s1)
  rw [hstep]
  rw [fieldFoot_eq_of_domF_eq _ _ _ hp21 hp22, hfoot2]
  exact add_comm _ _

lemma mergeValues_foot (objs : List MObj) (fields : List Nat) (f : Nat)
    (h1 : fields.Nodup) (h2 : (objs.map MObj.pk).Nodup) (hf : f ∈ fields) :
    fieldFoot (mergeValues objs fields) f = ↑(objs.map MObj.pk) := by
  obtain ⟨accu, hget, hne, hfoot⟩ := step1_char objs fields f h1 h2 hf
  have hkeys : ((step1 objs fields).1.map Prod.fst).Nodup := by
    refine step1go_keys_nodup objs fields ([], []) ?_
    simp
  rw [mergeValues, step2_foot (step1 objs fields).1 (step1 objs fields).2 f accu
      hkeys hget hne (by rw [hfoot]; exact (Multiset.coe_nodup.mpr h2))]
  rw [hfoot]

lemma countP_domF_groups (L : List (Finset Nat)) (p : Nat) :
    L.countP (fun K => decide (p ∈ K))
      = Multiset.count p ((↑L : Multiset (Finset Nat)).map Finset.val).sum := by
  induction L with
  | nil => simp
  | cons K t ih =>
      rw [show ((↑(K :: t) : Multiset (Finset Nat))) = K ::ₘ (↑t : Multiset (Finset Nat))
          from (Multiset.cons_coe K t).symm]
      rw [Multiset.map_cons, Multiset.sum_cons, Multiset.count_add, List.countP_cons, ih]
      by_cases hp : p ∈ K
      · rw [Multiset.count_eq_one_of_mem K.nodup hp]
        simp [hp, add_comm]
      · rw [Multiset.count_eq_zero_of_not_mem (fun hc => hp hc)]
        simp [hp]

lemma countP_singleton_groups (L : List Nat) (p : Nat) :
    (L.map (fun q => ({q} : Finset Nat))).countP (fun K => decide (p ∈ K))
      = L.count p := by
  induction L with
  | nil => simp
  | cons q t ih =>
      simp only [List.map_cons, List.countP_cons, List.count_cons, ih]
      by_cases hq : q = p
      · simp [hq, Finset.mem_singleton]
      · simp [hq, Finset.mem_singleton, Ne.symm hq]


lemma UDP_1_eq : UDP_1 = 10 := by
  simp [UDP_1, upd_pk_work, Real.logb_one]

lemma logb2_succ_le (k : Nat) (hk : 1 ≤ k) :
    Real.logb 2 ((k : ℝ) + 1) ≤ 1 + Real.logb 2 (k : ℝ) := by
  have hk' : (1 : ℝ) ≤ (k : ℝ) := by exact_mod_cast hk
  have h1 : ((k : ℝ) + 1) ≤ 2 * (k : ℝ) := by linarith
  calc Real.logb 2 ((k : ℝ) + 1)
      ≤ Real.logb 2 (2 * (k : ℝ)) :=
        Real.logb_le_logb_of_le (by norm_num) (by linarith) h1
    _ = Real.logb 2 2 + Real.logb 2 (k : ℝ) :=
        Real.logb_mul (by norm_num) (by linarith)
    _ = 1 + Real.logb 2 (k : ℝ) := by
        rw [Real.logb_self_eq_one (by norm_num)]

lemma foldl_add_eq_sum (l : List MObj) (g : MObj → Nat) :
    ∀ a : Nat, l.foldl (fun acc o => acc + g o) a = a + (l.map g).sum := by
  induction l with
  | nil => intro a; simp
  | cons o t ih =>
      intro a
      simp only [List.foldl_cons, List.map_cons, List.sum_cons, ih]
      omega

lemma logb2_2 : Real.logb 2 (2 : ℝ) = 1 := Real.logb_self_eq_one (by norm_num)

lemma logb2_4 : Real.logb 2 (4 : ℝ) = 2 := by
  rw [show (4:ℝ) = 2 ^ (2:ℕ) by norm_num, Real.logb_pow,
    Real.logb_self_eq_one (by norm_num)]
  norm_num

lemma logb2_8 : Real.logb 2 (8 : ℝ) = 3 := by
  rw [show (8:ℝ) = 2 ^ (3:ℕ) by norm_num, Real.logb_pow,
    Real.logb_self_eq_one (by norm_num)]
  norm_num

lemma logb2_6_le : Real.logb 2 (6 : ℝ) ≤ 3 := by
  calc Real.logb 2 (6 : ℝ) ≤ Real.logb 2 (8 : ℝ) :=
        Real.logb_le_logb_of_le (by norm_num) (by norm_num) (by norm_num)
    _ = 3 := logb2_8

lemma logb2_6_nonneg : (0 : ℝ) ≤ Real.logb 2 (6 : ℝ) :=
  Real.logb_nonneg (by norm_num) (by norm_num)

lemma pred_objs4_lt :
    predictor objs4 [0] (mergeValues objs4 [0]).1 (mergeValues objs4 [0]).2
      < (0.8 : ℝ) := by
  have h : mergeValues objs4 [0] = ([({1, 2, 3, 4}, [(0, ⟨true, 5⟩)])], []) := by
    decide
  rw [h]
  have hc : ({1, 2, 3, 4} : Finset ℕ).card = 4 := by decide
  simp only [predictor, UDP_1, upd_pk_work, objs4, List.map, List.sum_cons,
    List.sum_nil, List.length, hc]
  push_cast
  rw [Real.logb_one, logb2_4]
  norm_num

lemma pred_objsB_lt :
    predictor objsB [0, 1] (mergeValues objsB [0, 1]).1 (mergeValues objsB [0, 1]).2
      < (0.8 : ℝ) := by
  have h : mergeValues objsB [0, 1] =
      ([({1, 2}, [(0, ⟨true, 10⟩)]),
        ({3, 4}, [(0, ⟨true, 11⟩)]),
        ({5, 6}, [(0, ⟨true, 12⟩)]),
        ({1, 2, 3, 4, 5, 6}, [(1, ⟨true, 20⟩)])],
       [(7, [(0, ⟨true, 13⟩), (1, ⟨true, 21⟩)]),
        (8, [(0, ⟨true, 14⟩), (1, ⟨true, 22⟩)])]) := by decide
  rw [h]
  have hc1 : ({1, 2} : Finset ℕ).card = 2 := by decide
  have hc2 : ({3, 4} : Finset ℕ).card = 2 := by decide
  have hc3 : ({5, 6} : Finset ℕ).card = 2 := by decide
  have hc6 : ({1, 2, 3, 4, 5, 6} : Finset ℕ).card = 6 := by decide
  simp only [predictor, UDP_1, upd_pk_work, objsB, List.map, List.sum_cons,
    List.sum_nil, List.length, hc1, hc2, hc3, hc6]
  push_cast
  rw [Real.logb_one, logb2_2]
  rw [div_lt_iff₀ (by norm_num)]
  have := logb2_6_le
  linarith

lemma pred_objsA_not_lt :
    ¬ (predictor objsA [0, 1] (mergeValues objsA [0, 1]).1 (mergeValues objsA [0, 1]).2
      < (0.8 : ℝ)) := by
  have h : mergeValues objsA [0, 1] =
      ([({1, 2}, [(0, ⟨true, 10⟩)]),
        ({3, 4}, [(0, ⟨true, 11⟩)]),
        ({5, 6}, [(0, ⟨true, 12⟩)]),
        ({7, 8}, [(0, ⟨true, 14⟩)]),
        ({1, 2, 3, 4, 5, 6}, [(1, ⟨true, 20⟩)])],
       [(7, [(1, ⟨true, 21⟩)]), (8, [(1, ⟨true, 22⟩)])]) := by decide
  rw [h]
  have hc1 : ({1, 2} : Finset ℕ).card = 2 := by decide
  have hc2 : ({3, 4} : Finset ℕ).card = 2 := by decide
  have hc3 : ({5, 6} : Finset ℕ).card = 2 := by decide
  have hc4 : ({7, 8} : Finset ℕ).card = 2 := by decide
  have hc6 : ({1, 2, 3, 4, 5, 6} : Finset ℕ).card = 6 := by decide
  simp only [predictor, UDP_1, upd_pk_work, objsA, objsB, replaceFieldVal,
    List.map, List.sum_cons, List.sum_nil, List.length, hc1, hc2, hc3, hc4, hc6]
  push_cast
  rw [Real.logb_one, logb2_2]
  rw [not_lt, le_div_iff₀ (by norm_num)]
  have := logb2_6_nonneg
  linarith

lemma pred_c6w_lt :
    predictor objs4 [0] [({1, 2}, [(0, ⟨true, 5⟩)])] [(3, [(0, ⟨true, 7⟩)])]
      < (0.8 : ℝ) := by
  have hc : ({1, 2} : Finset ℕ).card = 2 := by decide
  simp only [predictor, UDP_1, upd_pk_work, objs4, List.map, List.sum_cons,
    List.sum_nil, List.length, hc]
  push_cast
  rw [Real.logb_one, logb2_2]
  norm_num

lemma balShape_depth_le_one (e : PyVal) : balShape 1 e 1 = "N" := by
  cases e <;> simp [balShape]

lemma allEqualStr_of_const (L : List String) (c : String) (h : ∀ x ∈ L, x = c) :
    allEqualStr L = true := by
  cases L with
  | nil => rfl
  | cons a t =>
      simp only [allEqualStr, List.all_eq_true]
      intro b hb
      rw [h a (by simp), h b (List.mem_cons_of_mem _ hb)]
      simp

lemma is_balanced_of_depth_le_one (v : PyVal) (depth : Nat) (h : depth ≤ 1) :
    is_balanced v depth = true := by
  cases v with
  | null => rfl
  | scalar n => rfl
  | arr es =>
      rcases Nat.le_one_iff_eq_zero_or_eq_one.mp h with h0 | h1
      · simp [is_balanced, h0]
      · subst h1
        simp only [is_balanced]
        rw [if_neg (by omega)]
        refine allEqualStr_of_const _ "N" ?_
        intro x hx
        obtain ⟨e, _, rfl⟩ := List.mem_map.mp hx
        exact balShape_depth_le_one e

lemma is_balanced_false_arr (v : PyVal) (depth : Nat)
    (h : is_balanced v depth = false) : ∃ es, v = PyVal.arr es := by
  cases v with
  | null => simp [is_balanced] at h
  | scalar n => simp [is_balanced] at h
  | arr es => exact ⟨es, rfl⟩

lemma isEmptyAllElems_of_all (es : List PyVal)
    (h : ∀ e ∈ es, e = PyVal.null ∨ e = PyVal.arr []) :
    isEmptyAllElems es = true := by
  induction es with
  | nil => rfl
  | cons a t ih =>
      have ht : isEmptyAllElems t = true :=
        ih (fun e he => h e (List.mem_cons_of_mem _ he))
      rcases h a (by simp) with ha | ha <;> subst ha <;>
        simp [isEmptyAllElems, is_empty_array, ht]


/-! ## Claim theorems -/

/-- C1 (amended): the sanity checks of fast_update raise a distinct
error for a negative batch size, an empty field list, an object with a
null primary key, a non-concrete or many-to-many field, and a
primary-key field, in that order; validation passes exactly when none
of these hold — duplicate primary keys among the objects and
deferred-expression values are not checked at all. -/
theorem c1_checked_violations (objs : List VObj) (fields : List VField) (bs : Option Int) :
    (fastUpdateCheck objs fields bs = none ↔
      ((∀ b, bs = some b → 0 ≤ b) ∧ fields ≠ []
        ∧ (∀ o ∈ objs, o.pk ≠ none)
        ∧ (∀ f ∈ fields, f.concrete = true ∧ f.manyToMany = false)
        ∧ (∀ f ∈ fields, f.primaryKey = false)))
    ∧ ((∃ b, bs = some b ∧ b < 0) →
        fastUpdateCheck objs fields bs = some FUErr.batchSize)
    ∧ ((∀ b, bs = some b → 0 ≤ b) → fields = [] →
        fastUpdateCheck objs fields bs = some FUErr.noFields)
    ∧ ((∀ b, bs = some b → 0 ≤ b) → fields ≠ [] → (∃ o ∈ objs, o.pk = none) →
        fastUpdateCheck objs fields bs = some FUErr.nullPk)
    ∧ ((∀ b, bs = some b → 0 ≤ b) → fields ≠ [] → (∀ o ∈ objs, o.pk ≠ none) →
        (∃ f ∈ fields, ¬ (f.concrete = true ∧ f.manyToMany = false)) →
        fastUpdateCheck objs fields bs = some FUErr.notConcrete)
    ∧ ((∀ b, bs = some b → 0 ≤ b) → fields ≠ [] → (∀ o ∈ objs, o.pk ≠ none) →
        (∀ f ∈ fields, f.concrete = true ∧ f.manyToMany = false) →
        (∃ f ∈ fields, f.primaryKey = true) →
        fastUpdateCheck objs fields bs = some FUErr.pkField) := by
  have hbs : (match bs with | some b => decide (b < 0) | none => false) = true
      ↔ ∃ b, bs = some b ∧ b < 0 := by
    cases bs with
    | none => simp
    | some b => simp
  have hbs' : (match bs with | some b => decide (b < 0) | none => false) = false
      ↔ ∀ b, bs = some b → 0 ≤ b := by
    cases bs with
    | none => simp
    | some b => simp [not_lt]
  unfold fastUpdateCheck
  split_ifs with h1 h2 h3 h4 h5 <;>
    simp_all [List.isEmpty_iff, List.any_eq_true, not_or, not_lt]
  refine ⟨fun hAll => ?_, fun hAll => ?_⟩ <;>
    obtain ⟨x, hx, hbad⟩ := h4 <;>
    have := hAll x hx <;>
    rcases hbad with hb | hb <;>
    simp_all

/-- C1 counterexample: a batch with two objects sharing primary key 1,
both holding a deferred-expression value, passes validation with no
error, so neither violation of the original claim is detected. -/
theorem c1_counterexample :
    fastUpdateCheck dupExprVObjs [okVField] none = none
    ∧ ¬ ((dupExprVObjs.map VObj.pk).Nodup)
    ∧ (∀ o ∈ dupExprVObjs, o.hasExpression = true) := by
  refine ⟨by decide, by decide, by decide⟩

/-- C1 witness: the amended theorem evaluated at concrete inputs for
the empty-field-list and null-primary-key errors. -/
theorem c1_checked_violations_witness :
    fastUpdateCheck [⟨some 1, false⟩] [] none = some FUErr.noFields
    ∧ fastUpdateCheck [⟨some 1, false⟩, ⟨none, false⟩] [okVField] none
        = some FUErr.nullPk :=
  ⟨(c1_checked_violations [⟨some 1, false⟩] [] none).2.2.1 (by simp) rfl,
   (c1_checked_violations [⟨some 1, false⟩, ⟨none, false⟩] [okVField] none).2.2.2.1
     (by simp) (by simp) ⟨⟨none, false⟩, by simp, rfl⟩⟩

/-- C2 (amended): the flat path returns the sum of the vendor-reported
row counts of its per-object statements, and copy_update returns the
vendor-reported count of its single UPDATE-FROM-staging statement; but
whenever the merged strategy is selected (at least 3 objects and a
predicted ratio below 0.8), the call returns the requested object
count regardless of any vendor-reported count and of the backend. -/
theorem c2_rowcount_paths (db : Stmt → Nat) (rc : SqlOp → Nat)
    (objs : List MObj) (fields : List Nat) :
    flatResult db objs fields = ((flatStmts objs fields).map db).sum
    ∧ (3 ≤ objs.length →
        predictor objs fields (mergeValues objs fields).1 (mergeValues objs fields).2
          < (0.8 : ℝ) →
        mergedUpdateResult db objs fields = objs.length)
    ∧ copyResult rc objs fields = rc (.updateJoin (copyRows objs fields)) := by
  refine ⟨?_, ?_, rfl⟩
  · rw [flatResult, foldl_add_eq_sum, flatStmts, List.map_map, Nat.zero_add]
    rfl
  · intro h hp
    have h3 : ¬ (objs.length < 3) := by omega
    rw [mergedUpdateResult, if_neg h3, mergedResult, if_pos hp]

/-- C2 counterexample: on a 4-object batch whose merged plan is
selected, every executed statement reports 0 affected rows, yet the
call returns 4 — the object count is substituted on the merged
strategy path, not on one backend's fallback path. -/
theorem c2_counterexample :
    mergedUpdateResult db0 objs4 [0] = 4
    ∧ ((mergedUpdateStmts objs4 [0]).map db0).sum = 0
    ∧ mergedUpdateResult db0 objs4 [0] ≠ ((mergedUpdateStmts objs4 [0]).map db0).sum := by
  have h1 : mergedUpdateResult db0 objs4 [0] = 4 := by
    rw [mergedUpdateResult, if_neg (by decide), mergedResult, if_pos pred_objs4_lt]
    rfl
  have h2 : ((mergedUpdateStmts objs4 [0]).map db0).sum = 0 := by
    rw [mergedUpdateStmts, if_neg (by decide), mergedStmts, if_pos pred_objs4_lt]
    decide
  exact ⟨h1, h2, by rw [h1, h2]; decide⟩

/-- C2 witness: the amended theorem evaluated at the all-zero cursor
oracle and the 4-object batch. -/
theorem c2_rowcount_paths_witness :
    flatResult db0 objs4 [0] = ((flatStmts objs4 [0]).map db0).sum
    ∧ (3 ≤ objs4.length)
    ∧ mergedUpdateResult db0 objs4 [0] = objs4.length
    ∧ copyResult (fun _ => 7) objs4 [0]
        = (fun _ => 7) (SqlOp.updateJoin (copyRows objs4 [0])) :=
  ⟨(c2_rowcount_paths db0 (fun _ => 7) objs4 [0]).1, by decide,
   ((c2_rowcount_paths db0 (fun _ => 7) objs4 [0]).2.1 (by decide) pred_objs4_lt),
   (c2_rowcount_paths db0 (fun _ => 7) objs4 [0]).2.2⟩

/-- C3 (amended): per field, every object appears in exactly one
update group.  For distinct field names and distinct primary keys,
and any field f of the batch, the groups carrying a value for f (the
merged pk sets mentioning f plus one singleton per residue mentioning
f) contain every pk of the batch exactly once, and contain nothing
else.  Across different fields an object may appear in several groups,
so the full collection of groups is not pairwise disjoint. -/
theorem c3_per_field_partition (objs : List MObj) (fields : List Nat) (f : Nat)
    (h1 : fields.Nodup) (h2 : (objs.map MObj.pk).Nodup) (hf : f ∈ fields) :
    ∀ p : Nat,
      (groupsForField (mergeValues objs fields) f).countP (fun K => decide (p ∈ K))
        = if p ∈ objs.map MObj.pk then 1 else 0 := by
  intro p
  have hfoot := mergeValues_foot objs fields f h1 h2 hf
  have hcnt : Multiset.count p (fieldFoot (mergeValues objs fields) f)
      = Multiset.count p (↑(objs.map MObj.pk) : Multiset Nat) := by rw [hfoot]
  simp only [fieldFoot, Multiset.count_add, Multiset.coe_count] at hcnt
  simp only [groupsForField, List.countP_append]
  rw [countP_domF_groups, countP_singleton_groups, hcnt]
  by_cases hp : p ∈ objs.map MObj.pk
  · rw [if_pos hp]
    exact List.count_eq_one_of_mem h2 hp
  · rw [if_neg hp]
    exact List.count_eq_zero_of_not_mem hp

/-- C3 counterexample: on a 3-object, 2-field batch the merged groups
are {1,2} (field 0) and {2,3} (field 1) with residues 3 and 1, so the
groups are not pairwise disjoint and pk 2 appears in two groups. -/
theorem c3_counterexample :
    ¬ ((allGroups (mergeValues objs3 [0, 1])).Pairwise (fun a b => Disjoint a b))
    ∧ ((allGroups (mergeValues objs3 [0, 1])).countP
        (fun K => decide ((2 : Nat) ∈ K))) = 2 := by
  constructor
  · decide
  · decide

/-- C3 witness: the amended theorem evaluated at the 3-object batch,
field 0, pk 2. -/
theorem c3_per_field_partition_witness :
    ([0, 1] : List Nat).Nodup ∧ (objs3.map MObj.pk).Nodup ∧ (0 : Nat) ∈ [0, 1]
    ∧ ((groupsForField (mergeValues objs3 [0, 1]) 0).countP
        (fun K => decide ((2 : Nat) ∈ K)))
      = (if (2 : Nat) ∈ objs3.map MObj.pk then 1 else 0) :=
  ⟨by decide, by decide, by decide,
    c3_per_field_partition objs3 [0, 1] 0 (by decide) (by decide) (by decide) 2⟩

/-- C4: merged_update executes the flat per-object plan whenever the
batch has fewer than 3 objects; otherwise it executes the merged plan
(one statement per merged group, then one per residue) exactly when
the predicted merged/flat cost ratio is below 0.8, and the flat plan
otherwise. -/
theorem c4_plan_choice (objs : List MObj) (fields : List Nat) :
    (objs.length < 3 → mergedUpdateStmts objs fields = flatStmts objs fields)
    ∧ (3 ≤ objs.length →
        (predictor objs fields (mergeValues objs fields).1 (mergeValues objs fields).2
            < (0.8 : ℝ) →
          mergedUpdateStmts objs fields = groupPlanStmts objs fields)
        ∧ (¬ (predictor objs fields (mergeValues objs fields).1 (mergeValues objs fields).2
            < (0.8 : ℝ)) →
          mergedUpdateStmts objs fields = flatStmts objs fields)) := by
  refine ⟨?_, ?_⟩
  · intro h
    rw [mergedUpdateStmts, if_pos h]
  · intro h
    have h3 : ¬ (objs.length < 3) := by omega
    constructor
    · intro hp
      rw [mergedUpdateStmts, if_neg h3, mergedStmts, if_pos hp]
    · intro hp
      rw [mergedUpdateStmts, if_neg h3, mergedStmts, if_neg hp]

/-- C4 witness: a 2-object batch short-circuits to the flat plan, and
the 4-object single-value batch takes the merged plan. -/
theorem c4_plan_choice_witness :
    mergedUpdateStmts [⟨1, [⟨true, 5⟩]⟩, ⟨2, [⟨true, 5⟩]⟩] [0]
        = flatStmts [⟨1, [⟨true, 5⟩]⟩, ⟨2, [⟨true, 5⟩]⟩] [0]
    ∧ mergedUpdateStmts objs4 [0] = groupPlanStmts objs4 [0] :=
  ⟨(c4_plan_choice [⟨1, [⟨true, 5⟩]⟩, ⟨2, [⟨true, 5⟩]⟩] [0]).1 (by decide),
   ((c4_plan_choice objs4 [0]).2 (by decide)).1 pred_objs4_lt⟩

/-- C5 (amended): the cost predictor equals the spec formula with the
per-group charge corrected — each residue costs
base_update_cost(1) plus the number of field-value entries stored for
it, and each merged group costs base_update_cost(group size) plus the
number of field-value entries it carries (not the full field count). -/
theorem c5_predictor_formula (objs : List MObj) (fields : List Nat) (mu : MuT) (fr : FrT) :
    predictor objs fields mu fr = predictorEntrywise objs fields mu fr := by
  have hsum1 : ((fr.map (fun e => base_update_cost 1 + (e.2.length : ℝ))).sum)
      = (fr.length : ℝ) * base_update_cost 1
        + ((fr.map (fun e => (e.2.length : ℝ))).sum) := by
    induction fr with
    | nil => simp
    | cons e t ih =>
        simp only [List.map_cons, List.sum_cons, List.length_cons, ih]
        push_cast
        ring
  have hsum2 : ((mu.map (fun e => base_update_cost e.1.card + (e.2.length : ℝ))).sum)
      = ((mu.map (fun e => base_update_cost e.1.card)).sum)
        + ((mu.map (fun e => (e.2.length : ℝ))).sum) := by
    induction mu with
    | nil => simp
    | cons e t ih =>
        simp only [List.map_cons, List.sum_cons, ih]
        ring
  simp only [predictor, predictorEntrywise, hsum1, hsum2, UDP_1]
  rw [show upd_pk_work 1 = base_update_cost 1 from rfl]
  rw [show (mu.map (fun e => upd_pk_work e.1.card))
      = (mu.map (fun e => base_update_cost e.1.card)) from rfl]
  ring_nf

/-- C5 counterexample: on the 3-object, 2-field batch the code's
predictor and the claim's formula differ (46/36 versus 50/36),
because residues and merged groups carry one field entry each while
the claim charges the full field count of 2. -/
theorem c5_counterexample :
    predictor objs3 [0, 1] (mergeValues objs3 [0, 1]).1 (mergeValues objs3 [0, 1]).2
      ≠ predictorSpecC5 objs3 [0, 1] (mergeValues objs3 [0, 1]).1
          (mergeValues objs3 [0, 1]).2 := by
  have h : mergeValues objs3 [0, 1] =
      ([({1, 2}, [(0, ⟨true, 10⟩)]), ({2, 3}, [(1, ⟨true, 3⟩)])],
       [(3, [(0, ⟨true, 11⟩)]), (1, [(1, ⟨true, 2⟩)])]) := by decide
  rw [h]
  have hc1 : ({1, 2} : Finset ℕ).card = 2 := by decide
  have hc2 : ({2, 3} : Finset ℕ).card = 2 := by decide
  simp only [predictor, predictorSpecC5, UDP_1, upd_pk_work, base_update_cost,
    objs3, List.map, List.sum_cons, List.sum_nil, List.length, hc1, hc2]
  push_cast
  rw [Real.logb_one, logb2_2]
  norm_num

/-- C6 (amended): at the predictor level, absorbing a residue object
that carries a single field entry into an existing merged group of the
same field never moves the predicted ratio above the threshold: if the
merged plan was selected before the absorption it is still selected
after it.  (Batch-level monotonicity under value duplication is false,
see the counterexample.) -/
theorem c6_residue_absorption (objs : List MObj) (fields : List Nat)
    (mu1 mu2 : MuT) (K : Finset Nat) (d : List (Nat × MVal)) (fr1 fr2 : FrT)
    (p f : Nat) (v : MVal)
    (hp : p ∉ K) (hK : K.Nonempty) (hobj : 0 < objs.length)
    (hsel : predictor objs fields (mu1 ++ (K, d) :: mu2)
        (fr1 ++ (p, [(f, v)]) :: fr2) < (0.8 : ℝ)) :
    predictor objs fields (mu1 ++ (insert p K, d) :: mu2) (fr1 ++ fr2) < (0.8 : ℝ) := by
  have hcard : (insert p K).card = K.card + 1 := Finset.card_insert_of_not_mem hp
  have hk1 : 1 ≤ K.card := Finset.card_pos.mpr hK
  have hlog : Real.logb 2 ((K.card : ℝ) + 1) ≤ 1 + Real.logb 2 (K.card : ℝ) :=
    logb2_succ_le K.card hk1
  have hflat : (0 : ℝ) < ((fields.length : ℝ) + UDP_1) * (objs.length : ℝ) := by
    rw [UDP_1_eq]
    have h1 : (0 : ℝ) < (objs.length : ℝ) := by exact_mod_cast hobj
    have h2 : (0 : ℝ) ≤ (fields.length : ℝ) := by positivity
    nlinarith
  simp only [predictor, upd_pk_work, List.map_append, List.sum_append,
    List.map_cons, List.sum_cons, List.length_append, List.length_cons,
    hcard] at hsel ⊢
  rw [div_lt_iff₀ hflat] at hsel ⊢
  push_cast at hsel ⊢
  push_cast [hcard] at hlog
  rw [UDP_1_eq] at hsel ⊢
  simp only [List.length_cons, List.length_nil] at hsel
  linarith

/-- C6 counterexample: for the 8-object batch objsB the merged plan is
chosen, but after replacing object 7's field-0 value with the value
already held by object 8 (strictly increasing duplication) the flat
plan is chosen. -/
theorem c6_counterexample :
    mergedUpdateStmts objsB [0, 1] = groupPlanStmts objsB [0, 1]
    ∧ (objsB[6]?).map MObj.pk = some 7
    ∧ (objsB[7]?).map (fun o => o.val 0) = some ⟨true, 14⟩
    ∧ objsA = replaceFieldVal objsB 6 0 ⟨true, 14⟩
    ∧ mergedUpdateStmts objsA [0, 1] = flatStmts objsA [0, 1]
    ∧ mergedUpdateStmts objsA [0, 1] ≠ groupPlanStmts objsA [0, 1] := by
  have h1 : mergedUpdateStmts objsB [0, 1] = groupPlanStmts objsB [0, 1] := by
    rw [mergedUpdateStmts, if_neg (by decide), mergedStmts, if_pos pred_objsB_lt]
  have h5 : mergedUpdateStmts objsA [0, 1] = flatStmts objsA [0, 1] := by
    rw [mergedUpdateStmts, if_neg (by decide), mergedStmts, if_neg pred_objsA_not_lt]
  refine ⟨h1, by decide, by decide, rfl, h5, ?_⟩
  rw [h5]
  intro hcon
  have : flatStmts objsA [0, 1] ≠ groupPlanStmts objsA [0, 1] := by decide
  exact this hcon

/-- C6 witness: the amended theorem applied to a concrete 4-object
configuration with one merged pair and one single-entry residue. -/
theorem c6_residue_absorption_witness :
    (3 : Nat) ∉ ({1, 2} : Finset Nat)
    ∧ ({1, 2} : Finset Nat).Nonempty
    ∧ 0 < objs4.length
    ∧ predictor objs4 [0] [({1, 2}, [(0, ⟨true, 5⟩)])] [(3, [(0, ⟨true, 7⟩)])] < (0.8 : ℝ)
    ∧ predictor objs4 [0] [(insert 3 {1, 2}, [(0, ⟨true, 5⟩)])] [] < (0.8 : ℝ) :=
  ⟨by decide, by decide, by decide, pred_c6w_lt,
    c6_residue_absorption objs4 [0] [] [] {1, 2} [(0, ⟨true, 5⟩)] [] [] 3 0 ⟨true, 7⟩
      (by decide) (by decide) (by decide) pred_c6w_lt⟩

/-- C7 (amended): whenever is_balanced(v, depth) is false and v does
not collapse to the empty array, the array encoder raises the
unbalanced-array error before consulting the base encoder; the
empty-array reduction is checked first and bypasses the balance
check. -/
theorem c7_unbalanced_raises (enc : BaseEnc) (depth : Nat) (nullOk : Bool) (v : PyVal)
    (hbal : is_balanced v depth = false)
    (hemp : is_empty_array v = false) :
    encodeArray enc depth nullOk v 0 = .error .unbalanced := by
  obtain ⟨es, rfl⟩ := is_balanced_false_arr v depth hbal
  have hd : 1 < depth := by
    by_contra hle
    push_neg at hle
    rw [is_balanced_of_depth_le_one _ depth (by omega)] at hbal
    simp at hbal
  rw [encodeArray]
  simp [hemp, hbal, hd]

/-- C7 counterexample: the value [[], [[], []]] is unbalanced at depth
2, yet the encoder returns the empty array token instead of raising,
because the empty-array reduction fires first. -/
theorem c7_counterexample :
    is_balanced vEmptyUnbalanced 2 = false
    ∧ encodeArray rejectEnc 2 false vEmptyUnbalanced 0 = .ok emptyArrayToken := by
  constructor
  · simp [vEmptyUnbalanced, is_balanced, balShape, balShapeList, allEqualStr]
  · simp [vEmptyUnbalanced, encodeArray, is_empty_array, isEmptyAllElems, allNullElems]

/-- C7 witness: the amended theorem evaluated at the unbalanced,
non-collapsing value [[1], [2, 3]] with depth 2. -/
theorem c7_unbalanced_raises_witness :
    is_balanced vUnbalanced 2 = false
    ∧ is_empty_array vUnbalanced = false
    ∧ encodeArray rejectEnc 2 false vUnbalanced 0 = .error .unbalanced := by
  have h1 : is_balanced vUnbalanced 2 = false := by
    simp [vUnbalanced, is_balanced, balShape, balShapeList, allEqualStr]
  have h2 : is_empty_array vUnbalanced = false := by
    simp [vUnbalanced, is_empty_array, isEmptyAllElems, allNullElems]
  exact ⟨h1, h2, c7_unbalanced_raises rejectEnc 2 false vUnbalanced h1 h2⟩

/-- C8: an array whose elements are all None or empty arrays, with at
least one empty array among them, is encoded as the canonical empty
array token, for every base encoder, depth and nullability. -/
theorem c8_empty_collapse (enc : BaseEnc) (depth : Nat) (nullOk : Bool) (es : List PyVal)
    (hall : ∀ e ∈ es, e = PyVal.null ∨ e = PyVal.arr [])
    (hsome : PyVal.arr [] ∈ es) :
    encodeArray enc depth nullOk (.arr es) 0 = .ok emptyArrayToken := by
  have hemp : is_empty_array (.arr es) = true := by
    cases es with
    | nil => simp at hsome
    | cons a t =>
        have hnull : allNullElems (a :: t) = false := by
          rcases Bool.eq_false_or_eq_true (allNullElems (a :: t)) with ht | hf
          · exfalso
            simp only [allNullElems, List.all_eq_true] at ht
            have := ht _ hsome
            simp at this
          · exact hf
        simp [is_empty_array, isEmptyAllElems_of_all _ hall, hnull]
  rw [encodeArray]
  simp [hemp]

/-- C8 witness: the theorem evaluated at the spec's scenario value
[[], None]. -/
theorem c8_empty_collapse_witness :
    (∀ e ∈ [PyVal.arr [], PyVal.null], e = PyVal.null ∨ e = PyVal.arr [])
    ∧ PyVal.arr [] ∈ [PyVal.arr [], PyVal.null]
    ∧ encodeArray rejectEnc 2 false vEmptyNone 0 = .ok emptyArrayToken :=
  ⟨by simp, by simp,
   c8_empty_collapse rejectEnc 2 false [PyVal.arr [], PyVal.null] (by simp) (by simp)⟩

/-- C9: the binary encoder encodes inline as backslash-escaped x plus
lowercase hex digits when the byte length is at most 4096, and for
longer values emits the one-byte placeholder and appends exactly one
(writer, raw bytes) lazy entry; a lazy entry is produced if and only
if the length exceeds 4096.  BinaryOrNone agrees with Binary on
non-null values. -/
theorem c9_binary_threshold (v : List Nat) (lazy : List LazyEntry) :
    (v.length ≤ 4096 → Binary v lazy = ("\\\\x" ++ bytesHex v, lazy))
    ∧ (4096 < v.length →
        Binary v lazy = ("\\\\x" ++ LAZY_PLACEHOLDER, lazy ++ [(.lazyBinary, v)]))
    ∧ ((Binary v lazy).2 ≠ lazy ↔ 4096 < v.length)
    ∧ BinaryOrNone (some v) lazy = Binary v lazy
    ∧ LAZY_PLACEHOLDER.length = 1 := by
  refine ⟨?_, ?_, ?_, rfl, by decide⟩
  · intro h
    rw [Binary, if_neg (by omega)]
  · intro h
    rw [Binary, if_pos h]
  · constructor
    · intro hne
      by_contra hle
      push_neg at hle
      rw [Binary, if_neg (by omega)] at hne
      exact hne rfl
    · intro h
      rw [Binary, if_pos h]
      intro hcon
      have := congrArg List.length hcon
      simp at this

/-- C9 witness: the theorem evaluated at a 1-byte value and at a
4097-byte value. -/
theorem c9_binary_threshold_witness :
    ((List.replicate 4097 (0 : Nat)).length > 4096)
    ∧ Binary [171] [] = ("\\\\x" ++ bytesHex [171], [])
    ∧ Binary (List.replicate 4097 (0 : Nat)) []
        = ("\\\\x" ++ LAZY_PLACEHOLDER, [(.lazyBinary, List.replicate 4097 (0 : Nat))]) :=
  ⟨by rw [List.length_replicate]; omega, (c9_binary_threshold [171] []).1 (by decide),
   (c9_binary_threshold (List.replicate 4097 (0 : Nat)) []).2.1
     (by rw [List.length_replicate]; omega)⟩

/-- C10: fast_update raises the batch-size error exactly when
batch_size is given and negative; batch_size 0 passes validation and
behaves like no batch size at all, and the effective batch size then
falls back to the backend's maximum (for any maximum not exceeding
2^31). -/
theorem c10_batch_size (objs : List VObj) (fields : List VField) (bs : Option Int)
    (m : Int) (hm : m ≤ 2 ^ 31) :
    (fastUpdateCheck objs fields bs = some FUErr.batchSize
      ↔ ∃ b, bs = some b ∧ b < 0)
    ∧ fastUpdateCheck objs fields (some 0) = fastUpdateCheck objs fields none
    ∧ effectiveBatchSize (some 0) m = m
    ∧ effectiveBatchSize none m = m := by
  have hbs : (match bs with | some b => decide (b < 0) | none => false) = true
      ↔ ∃ b, bs = some b ∧ b < 0 := by
    cases bs <;> simp
  refine ⟨?_, ?_, ?_, ?_⟩
  · unfold fastUpdateCheck
    split_ifs with h1 h2 h3 h4 h5 <;> simp_all
  · rfl
  · rw [effectiveBatchSize]
    simp only [if_pos rfl]
    exact min_eq_right hm
  · rw [effectiveBatchSize]
    exact min_eq_right hm

/-- C10 witness: the theorem evaluated at batch sizes -2, 0 and None
with backend maximum 5. -/
theorem c10_batch_size_witness :
    fastUpdateCheck [⟨some 1, false⟩] [okVField] (some (-2)) = some FUErr.batchSize
    ∧ fastUpdateCheck [⟨some 1, false⟩] [okVField] (some 0)
        = fastUpdateCheck [⟨some 1, false⟩] [okVField] none
    ∧ effectiveBatchSize (some 0) 5 = 5
    ∧ effectiveBatchSize none 5 = 5 :=
  ⟨(c10_batch_size [⟨some 1, false⟩] [okVField] (some (-2)) 5 (by norm_num)).1.mpr
      ⟨-2, rfl, by norm_num⟩,
   (c10_batch_size [⟨some 1, false⟩] [okVField] (some 0) 5 (by norm_num)).2.1,
   (c10_batch_size [⟨some 1, false⟩] [okVField] none 5 (by norm_num)).2.2.1,
   (c10_batch_size [⟨some 1, false⟩] [okVField] none 5 (by norm_num)).2.2.2⟩
